import Mathlib

/-
  Verification of the merge-gate decision engine (PRStatusChecker).

  The Python source `src/PRStatusChecker/pr_status_checker.py` is shallowly
  embedded below.  External effects (git commands, GitHub CLI queries, the
  file system) are represented by explicit inputs recording the outcome each
  call would produce:
    * a call that can raise an exception is `Except Unit α` (`.error` = raise);
    * a GitHub CLI query is a `FetchResult`: the subprocess can fail
      (`CalledProcessError`, which `_check_pr_status` catches), the JSON decode
      can raise (which propagates to the outer handler), or it yields a value.
  All string processing is done structurally over `List Char`, mirroring
  Python string semantics on the stripped command output the code consumes.
-/

/-- The single-quote character (code point 39), as used by the branch-name
pattern and by Python's `strip` of quotes around commit hashes. -/
def squote : Char := Char.ofNat 39

/-- The `#` separator used by `git show -s --format=%P#%ae`. -/
def hashChar : Char := Char.ofNat 35

/-- Whitespace test matching Python's `\s` class on the ASCII range
(space, tab, newline, carriage return, vertical tab, form feed). -/
def isWsChar (c : Char) : Bool :=
  (c == ' ') || (c == Char.ofNat 9) || (c == Char.ofNat 10) ||
  (c == Char.ofNat 13) || (c == Char.ofNat 11) || (c == Char.ofNat 12)

/-- Worker for `splitOnChar`; `acc` holds the current field reversed. -/
def splitOnCharAux (sep : Char) (acc : List Char) : List Char → List (List Char)
  | [] => [acc.reverse]
  | x :: rest =>
    if x == sep then acc.reverse :: splitOnCharAux sep [] rest
    else splitOnCharAux sep (x :: acc) rest

/-- Python `str.split(sep)` for a one-character separator (keeps empty fields). -/
def splitOnChar (sep : Char) (s : List Char) : List (List Char) :=
  splitOnCharAux sep [] s

/-- Python `str.splitlines()` on newline-separated, already-stripped command
output: the empty string yields no lines. -/
def splitlinesL (s : List Char) : List (List Char) :=
  if s = [] then [] else splitOnChar (Char.ofNat 10) s

/-- Python `str.strip(c)`: remove every leading and trailing occurrence of `c`. -/
def stripCharL (c : Char) (l : List Char) : List Char :=
  ((l.dropWhile (fun x => x == c)).reverse.dropWhile (fun x => x == c)).reverse

/-- Worker for `wordsL`; `acc` holds the current word reversed. -/
def wordsAuxL (acc : List Char) : List Char → List (List Char)
  | [] => if acc = [] then [] else [acc.reverse]
  | c :: rest =>
    if isWsChar c then
      if acc = [] then wordsAuxL [] rest else acc.reverse :: wordsAuxL [] rest
    else wordsAuxL (c :: acc) rest

/-- Python `str.split()` with no argument: split on whitespace runs,
discarding empty fields. -/
def wordsL (s : List Char) : List (List Char) :=
  wordsAuxL [] s

/-- Python `needle in haystack` on strings: substring containment. -/
def hasInfix (needle : List Char) : List Char → Bool
  | [] => List.isPrefixOf needle []
  | c :: rest => List.isPrefixOf needle (c :: rest) || hasInfix needle rest

/-- Match a literal prefix, returning the remainder of the input on success. -/
def dropLit : List Char → List Char → Option (List Char)
  | [], s => some s
  | _ :: _, [] => none
  | p :: ps, c :: cs => if p == c then dropLit ps cs else none

/-- Match the regex fragment whitespace-plus greedily: require at least one
whitespace character and consume the maximal whitespace run. -/
def wsDrop : List Char → Option (List Char)
  | [] => none
  | c :: cs => if isWsChar c then some (cs.dropWhile isWsChar) else none

/-- The literal `Merge` of the branch-name pattern. -/
def mergeLit : List Char := ['M', 'e', 'r', 'g', 'e']

/-- The literal `branch` of the branch-name pattern. -/
def branchLit : List Char := ['b', 'r', 'a', 'n', 'c', 'h']

/-- Attempt the pattern of `_get_feature_branch` at the start of the input:
literal `Merge`, whitespace, literal `branch`, whitespace, a single quote, a
nonempty run of non-quote characters (the capture group), and a closing
quote.  Returns the capture on success. -/
def matchAt (s : List Char) : Option (List Char) :=
  match dropLit mergeLit s with
  | none => none
  | some s1 =>
    match wsDrop s1 with
    | none => none
    | some s2 =>
      match dropLit branchLit s2 with
      | none => none
      | some s3pre =>
        match wsDrop s3pre with
        | none => none
        | some s3 =>
        match s3 with
        | [] => none
        | q :: s4 =>
          if q == squote then
            match s4.takeWhile (fun c => !(c == squote)) with
            | [] => none
            | c0 :: cs =>
              match s4.drop (c0 :: cs).length with
              | [] => none
              | q2 :: _ => if q2 == squote then some (c0 :: cs) else none
          else none

/-- Python `re.search`: try the pattern at every start position, leftmost
match first. -/
def searchCapture : List Char → Option (List Char)
  | [] => matchAt []
  | c :: rest =>
    match matchAt (c :: rest) with
    | some r => some r
    | none => searchCapture rest

/-- The regex extraction step of `_get_feature_branch`: first capture of the
branch-name pattern in the merge message, if any. -/
def extractFeatureBranch (msg : String) : Option String :=
  (searchCapture msg.data).map String.mk

/-- One entry of the `statusCheckRollup` JSON sequence, restricted to the two
fields `_check_pr_status` reads.  `conclusion = none` models an absent
`conclusion` key (Python `dict.get` then supplies `"FAILURE"`).  `completedAt`
timestamps are modelled as naturals; the Python code compares the ISO-8601
UTC strings, whose lexicographic order is their chronological order. -/
structure CheckResult where
  conclusion : Option String
  completedAt : Nat
deriving DecidableEq, Repr

/-- Dummy entry used only as the default of positional lookups in statements. -/
def defaultCheckResult : CheckResult := { conclusion := none, completedAt := 0 }

/-- Python `max(status_logs, key=lambda s: s["completedAt"])` on a nonempty
sequence `hd :: tl`: fold keeping the first entry among equal keys and
replacing only on a strictly larger key. -/
def selectLatest (hd : CheckResult) (tl : List CheckResult) : CheckResult :=
  tl.foldl (fun best x => if best.completedAt < x.completedAt then x else best) hd

/-- The verdict `_check_pr_status` computes from a check rollup: on a nonempty
sequence, the latest-completed entry passes iff its conclusion (defaulting to
`FAILURE` when absent) is not the string `FAILURE`.  The empty case folds in
the `if not status_logs: return True` guard. -/
def checkVerdict : List CheckResult → Bool
  | [] => true
  | hd :: tl => !(((selectLatest hd tl).conclusion.getD "FAILURE") == "FAILURE")

/-- Index of the entry Python's `max` selects, given the list of keys:
first index holding the maximal key. -/
def selIdxAux : Nat → Nat → Nat → List Nat → Nat
  | _, bi, _, [] => bi
  | b, bi, i, t :: rest =>
    if b < t then selIdxAux t i (i + 1) rest else selIdxAux b bi (i + 1) rest

/-- Index selected by Python's `max` on a list of `completedAt` keys. -/
def selIdx : List Nat → Nat
  | [] => 0
  | t :: rest => selIdxAux t 0 1 rest


/-- Outcome of a GitHub CLI query followed by a JSON decode, as consumed by
`_check_pr_status`: the subprocess can exit nonzero (`CalledProcessError`,
caught locally), the JSON decode can raise (propagating to the caller), or a
value is produced. -/
inductive FetchResult (α : Type) : Type
  | cmdErr : FetchResult α
  | parseErr : FetchResult α
  | ok : α → FetchResult α
deriving DecidableEq, Repr

instance {ε α : Type} [DecidableEq ε] [DecidableEq α] : DecidableEq (Except ε α) := fun a b =>
  match a, b with
  | .error e, .error f =>
    if h : e = f then .isTrue (by rw [h]) else .isFalse (by simp [h])
  | .error _, .ok _ => .isFalse (by simp)
  | .ok _, .error _ => .isFalse (by simp)
  | .ok x, .ok y =>
    if h : x = y then .isTrue (by rw [h]) else .isFalse (by simp [h])

/-- `_check_github_cli_availability`: the installation check (`which gh`) and
the authentication check (`gh auth status`) are commented out in the source,
so the function returns `True` without consulting either fact.  The two
arguments are the environment facts the disabled checks would have read. -/
def check_github_cli_availability (_toolInstalled : Bool) (_authenticated : Bool) : Bool :=
  true

/-- `_check_pr_status`: availability gate, `gh pr list --head` for the PR
numbers, then `gh pr view --json statusCheckRollup` for the rollup.  A caught
command error yields `False`; a JSON decode error propagates (`.error`); no
PR or no rollup yields `True`; otherwise the verdict of the rollup. -/
def check_pr_status_impl (ghInstalled : Bool) (ghAuthenticated : Bool)
    (prList : FetchResult (List Nat))
    (rollup : FetchResult (Option (List CheckResult))) : Except Unit Bool :=
  if !(check_github_cli_availability ghInstalled ghAuthenticated) then .ok false
  else
    match prList with
    | .cmdErr => .ok false
    | .parseErr => .error ()
    | .ok [] => .ok true
    | .ok (_ :: _) =>
      match rollup with
      | .cmdErr => .ok false
      | .parseErr => .error ()
      | .ok none => .ok true
      | .ok (some logs) => .ok (checkVerdict logs)

/-- The committer-email test string of `is_fms_member`. -/
def fmsDomain : List Char := "@fullmarks.co.jp".data

/-- The commit loop of `is_fms_member`: for each hash (stripped of single
quotes) look up `git show -s --format=%P#%ae`; a failing lookup raises
(`.error`), as does output that does not split into exactly two fields at
`#`; a commit with more than one parent is skipped; the first remaining
commit decides by substring containment of the organisation domain in the
committer email.  Falling off the end returns Python `None`, rendered as
`false`, which is how the only caller consumes it (by truthiness). -/
def fms_loop (showResult : String → Except Unit String) : List (List Char) → Except Unit Bool
  | [] => .ok false
  | h :: rest =>
    match showResult (String.mk (stripCharL squote h)) with
    | .error e => .error e
    | .ok out =>
      match splitOnChar hashChar out.data with
      | [parents, email] =>
        if (wordsL parents).length > 1 then fms_loop showResult rest
        else .ok (hasInfix fmsDomain email)
      | _ => .error ()

/-- `is_fms_member`: the `git log --reverse origin/base..origin/feature`
query is guarded — an exception or output starting with `fatal` yields
`False` — and otherwise the commit loop runs over the output lines. -/
def is_fms_member (logResult : Except Unit String)
    (showResult : String → Except Unit String) : Except Unit Bool :=
  match logResult with
  | .error _ => .ok false
  | .ok commitHashes =>
    if List.isPrefixOf "fatal".data commitHashes.data then .ok false
    else fms_loop showResult (splitlinesL commitHashes.data)

/-- Outcomes of the external calls one invocation of `check_pr_status` can
make: git queries (`Except`, `.error` = raised exception), the merge-message
file state, the facts the disabled availability checks would read, and the
two GitHub CLI fetches. -/
structure World where
  gitDirResult : Except Unit String
  mergeMsgExists : Bool
  mergeMsg : String
  baseBranchResult : Except Unit String
  fmsLogResult : Except Unit String
  fmsShowResult : String → Except Unit String
  ghInstalled : Bool
  ghAuthenticated : Bool
  ghPrList : FetchResult (List Nat)
  ghRollup : FetchResult (Option (List CheckResult))

/-- `_get_feature_branch`: resolve the git directory (a failure raises),
return `None` when `MERGE_MSG` is absent, otherwise the regex capture from
the merge message. -/
def get_feature_branch (w : World) : Except Unit (Option String) :=
  match w.gitDirResult with
  | .error e => .error e
  | .ok _ =>
    if w.mergeMsgExists then .ok (extractFeatureBranch w.mergeMsg)
    else .ok none

/-- `is_fms_member` applied to the outcomes recorded in a `World`. -/
def is_fms_member_w (w : World) : Except Unit Bool :=
  is_fms_member w.fmsLogResult w.fmsShowResult

/-- `_check_pr_status` applied to the outcomes recorded in a `World`. -/
def check_pr_status_impl_w (w : World) : Except Unit Bool :=
  check_pr_status_impl w.ghInstalled w.ghAuthenticated w.ghPrList w.ghRollup

/-- `check_pr_status`, the orchestrator.  The first component is the exit
code it returns; the second records whether `reset_to_before_merge` (the
rollback: `git reset --merge` and `git checkout -`) ran before returning.
An uncaught exception from any step is absorbed by the outer handler, which
rolls back and returns 1.  An absent or unparseable merge message, and a
committer outside the organisation, skip the check and return 0. -/
def check_pr_status (w : World) : Nat × Bool :=
  match get_feature_branch w with
  | .error _ => (1, true)
  | .ok none => (0, false)
  | .ok (some fb) =>
    if fb = "" then (0, false)
    else
      match w.baseBranchResult with
      | .error _ => (1, true)
      | .ok bb =>
        if bb = "" then
          match check_pr_status_impl_w w with
          | .error _ => (1, true)
          | .ok false => (1, true)
          | .ok true => (0, false)
        else
          match is_fms_member_w w with
          | .error _ => (1, true)
          | .ok false => (0, false)
          | .ok true =>
            match check_pr_status_impl_w w with
            | .error _ => (1, true)
            | .ok false => (1, true)
            | .ok true => (0, false)

/-- The domain of an email address, following the spec's words for the
membership rule: the part after the last `@`.  Used only to compare the
spec's stated policy with the source's substring test. -/
def emailDomain (email : List Char) : List Char :=
  (email.reverse.takeWhile (fun c => !(c == '@'))).reverse

/-- The branch-name pattern as the spec states it: somewhere in the message,
`Merge`, whitespace, `branch`, whitespace, then a single-quoted nonempty
branch name `X` containing no single quote. -/
def MatchesPattern (msg : List Char) : Prop :=
  ∃ u w1 w2 X rest, msg = u ++ mergeLit ++ w1 ++ branchLit ++ w2 ++
      squote :: (X ++ squote :: rest) ∧
    w1 ≠ [] ∧ (∀ c ∈ w1, isWsChar c = true) ∧
    w2 ≠ [] ∧ (∀ c ∈ w2, isWsChar c = true) ∧
    X ≠ [] ∧ (∀ c ∈ X, ¬(c = squote))

/-- Modelled from the spec: the `VerdictCache` component (§4.6) is absent
from `src/`; the spec describes a keyed persistent store with one entry per
key and last-write-wins overwrites, keyed by (repositoryId, branch). -/
def VerdictCache : Type := List ((Nat × String) × Bool)

/-- Modelled from the spec: `lookup(repositoryId, branch) -> optional bool`. -/
def VerdictCache.lookup (c : VerdictCache) (r : Nat) (b : String) : Option Bool :=
  (List.find? (fun e => e.1 == (r, b)) c).map (fun e => e.2)

/-- Modelled from the spec: `store(repositoryId, branch, passed: bool)`,
an idempotent overwrite of the single entry for the key. -/
def VerdictCache.store (c : VerdictCache) (r : Nat) (b : String) (passed : Bool) : VerdictCache :=
  ((r, b), passed) :: List.filter (fun e => !(e.1 == (r, b))) c

/-- Modelled from the spec: the `CheckingCache` step of the orchestrator
(§4.7) — a cache hit moves directly to `Deciding` with the cached verdict,
bypassing `QueryingService`; only a miss consults the service. -/
def decideWithCache (c : VerdictCache) (r : Nat) (b : String)
    (queryVerdict : Except Unit Bool) : Except Unit Bool :=
  match VerdictCache.lookup c r b with
  | some v => .ok v
  | none => queryVerdict

/-- A fully successful run: merge in progress with message `Merge branch` of
branch `f`, base branch `main`, a first commit by an organisation member,
one open PR whose single check concluded SUCCESS. -/
def wOk : World where
  gitDirResult := .ok ".git"
  mergeMsgExists := true
  mergeMsg := String.mk (mergeLit ++ ' ' :: (branchLit ++ ' ' :: squote :: ('f' :: [squote])))
  baseBranchResult := .ok "main"
  fmsLogResult := .ok "h1"
  fmsShowResult := fun h => if h = "h1" then .ok "p#a@fullmarks.co.jp" else .error ()
  ghInstalled := true
  ghAuthenticated := true
  ghPrList := .ok [1]
  ghRollup := .ok (some [⟨some "SUCCESS", 1⟩])

/-- Same run with a FAILURE conclusion on the single check. -/
def wFail : World := { wOk with ghRollup := .ok (some [⟨some "FAILURE", 1⟩]) }

/-- Same run with a merge message matching no branch-name pattern. -/
def wNoPattern : World := { wOk with mergeMsg := "no pattern here" }

/-- Same run with the GitHub CLI neither installed nor authenticated. -/
def wNoAuth : World := { wOk with ghInstalled := false, ghAuthenticated := false }

/-- Same run with the PR-list query failing as a command error. -/
def wCmdErr : World := { wOk with ghPrList := FetchResult.cmdErr }

/-- Same run with an empty check rollup. -/
def wEmptyRollup : World := { wOk with ghRollup := .ok (some []) }

/-- Same run with the rollup key absent. -/
def wAbsentRollup : World := { wOk with ghRollup := .ok none }

/-- Same run with no open pull request for the branch. -/
def wNoPr : World := { wOk with ghPrList := .ok [] }

/-- Commit lookup answering hash `h1` with a single-parent commit whose
committer email's domain is `fullmarks.co.jp.evil.com`. -/
def fmsShowEvil : String → Except Unit String := fun h =>
  if h = "h1" then .ok "p#x@fullmarks.co.jp.evil.com" else .error ()

/-- Commit lookup answering hash `h1` with a single-parent commit by an
organisation member. -/
def fmsShowMember : String → Except Unit String := fun h =>
  if h = "h1" then .ok "p#a@fullmarks.co.jp" else .error ()

/- Helper lemmas. -/

theorem dropLit_eq_append {p s r : List Char} (h : dropLit p s = some r) : s = p ++ r := by
  induction p generalizing s with
  | nil => simpa [dropLit] using h
  | cons a ps ih =>
    cases s with
    | nil => simp [dropLit] at h
    | cons c cs =>
      by_cases hac : a == c
      · have hr := ih (by simpa [dropLit, hac] using h)
        have : a = c := eq_of_beq hac
        simp [this, hr]
      · simp [dropLit, hac] at h

theorem dropLit_append (p s : List Char) : dropLit p (p ++ s) = some s := by
  induction p with
  | nil => simp [dropLit]
  | cons a ps ih => simp [dropLit, ih]

theorem mem_takeWhile {p : Char → Bool} {l : List Char} {c : Char}
    (h : c ∈ l.takeWhile p) : p c = true := by
  induction l with
  | nil => simp [List.takeWhile] at h
  | cons a rest ih =>
    by_cases ha : p a
    · rw [List.takeWhile_cons_of_pos ha] at h
      rcases List.mem_cons.mp h with h1 | h2
      · rwa [h1]
      · exact ih h2
    · rw [List.takeWhile_cons_of_neg (by simpa using ha)] at h
      simp at h

theorem drop_append_self (l₁ l₂ : List Char) : (l₁ ++ l₂).drop l₁.length = l₂ := by
  induction l₁ with
  | nil => simp
  | cons a rest ih => simpa using ih

theorem wsDrop_sound {s r : List Char} (h : wsDrop s = some r) :
    ∃ w, s = w ++ r ∧ w ≠ [] ∧ (∀ c ∈ w, isWsChar c = true) := by
  cases s with
  | nil => simp [wsDrop] at h
  | cons c cs =>
    by_cases hc : isWsChar c
    · refine ⟨c :: cs.takeWhile isWsChar, ?_, by simp, ?_⟩
      · have hr : r = cs.dropWhile isWsChar := by
          simpa [wsDrop, hc] using h.symm
        simp [hr, List.takeWhile_append_dropWhile]
      · intro x hx
        rcases List.mem_cons.mp hx with h1 | h2
        · rwa [h1]
        · exact mem_takeWhile h2
    · simp [wsDrop, hc] at h

theorem takeWhile_append_eq {p : Char → Bool} {X : List Char} (y : Char) (r : List Char)
    (hX : ∀ c ∈ X, p c = true) (hy : p y = false) :
    (X ++ y :: r).takeWhile p = X := by
  induction X with
  | nil => simp [List.takeWhile, hy]
  | cons a rest ih =>
    have ha : p a = true := hX a (by simp)
    simp only [List.cons_append, List.takeWhile_cons_of_pos ha]
    rw [ih (fun c hc => hX c (by simp [hc]))]

theorem dropWhile_append_all {p : Char → Bool} {w : List Char} (l : List Char)
    (hw : ∀ c ∈ w, p c = true) :
    (w ++ l).dropWhile p = l.dropWhile p := by
  induction w with
  | nil => simp
  | cons a rest ih =>
    have ha : p a = true := hw a (by simp)
    simp only [List.cons_append, List.dropWhile_cons_of_pos ha]
    exact ih (fun c hc => hw c (by simp [hc]))

theorem matchAt_complete (w1 w2 X rest : List Char)
    (hw1 : w1 ≠ []) (hw1a : ∀ c ∈ w1, isWsChar c = true)
    (hw2 : w2 ≠ []) (hw2a : ∀ c ∈ w2, isWsChar c = true)
    (hX : X ≠ []) (hXq : ∀ c ∈ X, ¬(c = squote)) :
    matchAt (mergeLit ++ w1 ++ branchLit ++ w2 ++ squote :: (X ++ squote :: rest)) =
      some X := by
  cases w1 with
  | nil => exact absurd rfl hw1
  | cons a as =>
  cases w2 with
  | nil => exact absurd rfl hw2
  | cons b bs =>
  cases X with
  | nil => exact absurd rfl hX
  | cons c0 cs =>
  have ha : isWsChar a = true := hw1a a (by simp)
  have has : ∀ c ∈ as, isWsChar c = true := fun c hc => hw1a c (by simp [hc])
  have hb : isWsChar b = true := hw2a b (by simp)
  have hbs : ∀ c ∈ bs, isWsChar c = true := fun c hc => hw2a c (by simp [hc])
  have hXall : ∀ c ∈ c0 :: cs, (!(c == squote)) = true := by
    intro c hc
    have := hXq c hc
    simp [this]
  have e1 : dropLit mergeLit
      (mergeLit ++ ((a :: as) ++ (branchLit ++ ((b :: bs) ++ squote :: ((c0 :: cs) ++ squote :: rest))))) =
      some ((a :: as) ++ (branchLit ++ ((b :: bs) ++ squote :: ((c0 :: cs) ++ squote :: rest)))) :=
    dropLit_append _ _
  have e2 : wsDrop ((a :: as) ++ (branchLit ++ ((b :: bs) ++ squote :: ((c0 :: cs) ++ squote :: rest)))) =
      some (branchLit ++ ((b :: bs) ++ squote :: ((c0 :: cs) ++ squote :: rest))) := by
    simp only [List.cons_append, wsDrop, ha, if_true]
    rw [dropWhile_append_all _ has]
    simp [branchLit, List.dropWhile_cons_of_neg, show isWsChar 'b' = false from by decide]
  have e3 : dropLit branchLit (branchLit ++ ((b :: bs) ++ squote :: ((c0 :: cs) ++ squote :: rest))) =
      some ((b :: bs) ++ squote :: ((c0 :: cs) ++ squote :: rest)) := dropLit_append _ _
  have e4 : wsDrop ((b :: bs) ++ squote :: ((c0 :: cs) ++ squote :: rest)) =
      some (squote :: ((c0 :: cs) ++ squote :: rest)) := by
    simp only [List.cons_append, wsDrop, hb, if_true]
    rw [dropWhile_append_all _ hbs]
    rw [List.dropWhile_cons_of_neg (by simp [show isWsChar squote = false from by decide])]
  have e5 : ((c0 :: cs) ++ squote :: rest).takeWhile (fun c => !(c == squote)) = c0 :: cs :=
    takeWhile_append_eq squote rest hXall (by simp)
  have e6 : ((c0 :: cs) ++ squote :: rest).drop (c0 :: cs).length = squote :: rest :=
    drop_append_self (c0 :: cs) (squote :: rest)
  have hshape : mergeLit ++ (a :: as) ++ branchLit ++ (b :: bs) ++ squote :: ((c0 :: cs) ++ squote :: rest) =
      mergeLit ++ ((a :: as) ++ (branchLit ++ ((b :: bs) ++ squote :: ((c0 :: cs) ++ squote :: rest)))) := by
    simp [List.append_assoc]
  rw [hshape]
  simp only [matchAt, e1, e2, e3, e4, beq_self_eq_true, if_true, e5, e6]

theorem matchAt_sound {s X : List Char} (h : matchAt s = some X) :
    ∃ w1 w2 rest, s = mergeLit ++ w1 ++ branchLit ++ w2 ++ squote :: (X ++ squote :: rest) ∧
      w1 ≠ [] ∧ (∀ c ∈ w1, isWsChar c = true) ∧
      w2 ≠ [] ∧ (∀ c ∈ w2, isWsChar c = true) ∧
      X ≠ [] ∧ (∀ c ∈ X, ¬(c = squote)) := by
  rw [matchAt] at h
  split at h
  · exact absurd h (by simp)
  next s1 h1 =>
  split at h
  · exact absurd h (by simp)
  next s2 h2 =>
  split at h
  · exact absurd h (by simp)
  next s3pre h3 =>
  split at h
  · exact absurd h (by simp)
  next s3 h4 =>
  split at h
  · exact absurd h (by simp)
  next q s4 =>
  split at h
  case isFalse => exact absurd h (by simp)
  case isTrue hq =>
  split at h
  · exact absurd h (by simp)
  next c0 cs h5 =>
  split at h
  · exact absurd h (by simp)
  next q2 rest2 h6 =>
  split at h
  case isFalse => exact absurd h (by simp)
  case isTrue hq2 =>
  have hXeq : X = c0 :: cs := by simpa using h.symm
  subst hXeq
  obtain ⟨w1, hs1, hw1ne, hw1a⟩ := wsDrop_sound h2
  obtain ⟨w2, hs3pre, hw2ne, hw2a⟩ := wsDrop_sound h4
  have hqe : q = squote := eq_of_beq hq
  have hq2e : q2 = squote := eq_of_beq hq2
  have hs4 : s4 = (c0 :: cs) ++ s4.dropWhile (fun c => !(c == squote)) := by
    conv_lhs => rw [← List.takeWhile_append_dropWhile (p := fun c => !(c == squote)) (l := s4)]
    rw [h5]
  have hdw : s4.dropWhile (fun c => !(c == squote)) = q2 :: rest2 := by
    rw [← h6]
    conv_lhs => rw [← drop_append_self (c0 :: cs) (s4.dropWhile (fun c => !(c == squote)))]
    rw [← hs4]
  refine ⟨w1, w2, rest2, ?_, hw1ne, hw1a, hw2ne, hw2a, by simp, ?_⟩
  · have hse : s = mergeLit ++ s1 := dropLit_eq_append h1
    rw [hse, hs1, dropLit_eq_append h3, hs3pre]
    rw [hs4, hdw, hq2e, hqe]
    simp
  · intro c hc
    have hmem : c ∈ s4.takeWhile (fun x => !(x == squote)) := by rw [h5]; exact hc
    have := mem_takeWhile hmem
    simp at this
    exact this

theorem searchCapture_sound : ∀ {msg X : List Char},
    searchCapture msg = some X → MatchesPattern msg := by
  intro msg
  induction msg with
  | nil =>
    intro X h
    rw [show searchCapture [] = none from rfl] at h
    simp at h
  | cons c rest ih =>
    intro X h
    rw [searchCapture] at h
    cases hm : matchAt (c :: rest) with
    | some r =>
      rw [hm] at h
      have hr : r = X := by simpa using h
      subst hr
      obtain ⟨w1, w2, r2, heq, hs⟩ := matchAt_sound hm
      exact ⟨[], w1, w2, r, r2, by simpa using heq, hs⟩
    | none =>
      rw [hm] at h
      obtain ⟨u, w1, w2, Y, r2, heq, hs⟩ := ih h
      exact ⟨c :: u, w1, w2, Y, r2, by simp [heq], hs⟩

theorem getD_append_lt {α : Type} (l1 l2 : List α) (d : α) (n : Nat) (h : n < l1.length) :
    (l1 ++ l2).getD n d = l1.getD n d := by
  induction l1 generalizing n with
  | nil => simp at h
  | cons a rest ih =>
    cases n with
    | zero => simp
    | succ m =>
      have : m < rest.length := by simpa using h
      simpa using ih m this

theorem getD_append_length {α : Type} (l1 : List α) (x : α) (l2 : List α) (d : α) :
    (l1 ++ x :: l2).getD l1.length d = x := by
  induction l1 with
  | nil => simp
  | cons a rest ih => simpa using ih

theorem foldl_select_getD :
    ∀ (t pre : List CheckResult) (best : CheckResult) (bi : Nat),
    bi < pre.length → pre.getD bi defaultCheckResult = best →
    List.foldl (fun b x => if b.completedAt < x.completedAt then x else b) best t =
      (pre ++ t).getD
        (selIdxAux best.completedAt bi pre.length (t.map (fun c => c.completedAt)))
        defaultCheckResult := by
  intro t
  induction t with
  | nil =>
    intro pre best bi hlt hget
    simp only [List.map_nil, selIdxAux, List.foldl_nil, List.append_nil]
    exact hget.symm
  | cons x rest ih =>
    intro pre best bi hlt hget
    rw [List.foldl_cons]
    simp only [List.map_cons, selIdxAux]
    by_cases hc : best.completedAt < x.completedAt
    · rw [if_pos hc, if_pos hc]
      have h1 : pre.length < (pre ++ [x]).length := by simp
      have h2 : (pre ++ [x]).getD pre.length defaultCheckResult = x := by
        simpa using getD_append_length pre x [] defaultCheckResult
      have hrec := ih (pre ++ [x]) x pre.length h1 h2
      simp only [List.append_assoc, List.singleton_append, List.length_append,
        List.length_singleton] at hrec
      exact hrec
    · rw [if_neg hc, if_neg hc]
      have h1 : bi < (pre ++ [x]).length := by
        simp only [List.length_append, List.length_singleton]
        omega
      have h2 : (pre ++ [x]).getD bi defaultCheckResult = best := by
        rw [getD_append_lt _ _ _ _ hlt]
        exact hget
      have hrec := ih (pre ++ [x]) best bi h1 h2
      simp only [List.append_assoc, List.singleton_append, List.length_append,
        List.length_singleton] at hrec
      exact hrec

theorem selectLatest_eq_getD (hd : CheckResult) (tl : List CheckResult) :
    selectLatest hd tl =
      (hd :: tl).getD (selIdx ((hd :: tl).map (fun c => c.completedAt))) defaultCheckResult := by
  have h := foldl_select_getD tl [hd] hd 0 (by simp) (by simp)
  simpa [selectLatest, selIdx] using h

theorem foldl_select_mem :
    ∀ (tl : List CheckResult) (best : CheckResult),
    List.foldl (fun b x => if b.completedAt < x.completedAt then x else b) best tl ∈ best :: tl := by
  intro tl
  induction tl with
  | nil => intro best; simp
  | cons y rest ih =>
    intro best
    rw [List.foldl_cons]
    by_cases hc : best.completedAt < y.completedAt
    · rw [if_pos hc]
      exact List.mem_cons_of_mem best (ih y)
    · rw [if_neg hc]
      rcases List.mem_cons.mp (ih best) with h1 | h1
      · rw [h1]
        exact List.mem_cons_self _ _
      · exact List.mem_cons_of_mem _ (List.mem_cons_of_mem _ h1)

theorem foldl_select_max :
    ∀ (tl : List CheckResult) (best : CheckResult) (x : CheckResult), x ∈ best :: tl →
    x.completedAt ≤
      (List.foldl (fun b y => if b.completedAt < y.completedAt then y else b) best tl).completedAt := by
  intro tl
  induction tl with
  | nil =>
    intro best x hx
    have hxb : x = best := by simpa using hx
    simp [hxb]
  | cons y rest ih =>
    intro best x hx
    rw [List.foldl_cons]
    by_cases hc : best.completedAt < y.completedAt
    · rw [if_pos hc]
      rcases List.mem_cons.mp hx with h1 | h1
      · have hxy : x.completedAt ≤ y.completedAt := by
          rw [h1]
          exact Nat.le_of_lt hc
        exact le_trans hxy (ih y y (List.mem_cons_self _ _))
      · rcases List.mem_cons.mp h1 with h2 | h2
        · refine ih y x ?_
          rw [h2]
          exact List.mem_cons_self _ _
        · exact ih y x (List.mem_cons_of_mem _ h2)
    · rw [if_neg hc]
      rcases List.mem_cons.mp hx with h1 | h1
      · refine ih best x ?_
        rw [h1]
        exact List.mem_cons_self _ _
      · rcases List.mem_cons.mp h1 with h2 | h2
        · have hxb : x.completedAt ≤ best.completedAt := by
            rw [h2]
            exact Nat.le_of_not_lt hc
          exact le_trans hxb (ih best best (List.mem_cons_self _ _))
        · exact ih best x (List.mem_cons_of_mem _ h2)

theorem find?_filter_ne (l : List ((Nat × String) × Bool)) (k kp : Nat × String) (hne : kp ≠ k) :
    List.find? (fun e => e.1 == k) (List.filter (fun e => !(e.1 == kp)) l) =
      List.find? (fun e => e.1 == k) l := by
  induction l with
  | nil => simp
  | cons e rest ih =>
    by_cases hek : (e.1 == k) = true
    · have hekp : (e.1 == kp) = false := by
        have h1 : e.1 = k := eq_of_beq hek
        rw [h1, beq_eq_false_iff_ne]
        exact Ne.symm hne
      rw [List.filter_cons_of_pos (by simp [hekp])]
      simp [List.find?, hek]
    · have hekf : (e.1 == k) = false := Bool.eq_false_iff.mpr hek
      by_cases hekp : (e.1 == kp) = true
      · rw [List.filter_cons_of_neg (by simp [hekp])]
        rw [ih]
        simp [List.find?, hekf]
      · rw [List.filter_cons_of_pos (by simp [Bool.eq_false_iff.mpr hekp])]
        simpa [List.find?, hekf] using ih

theorem splitOnCharAux_no_sep (c : Char) :
    ∀ (l acc : List Char), c ∉ l → splitOnCharAux c acc l = [acc.reverse ++ l] := by
  intro l
  induction l with
  | nil => intro acc _; simp [splitOnCharAux]
  | cons x rest ih =>
    intro acc hnotin
    have hx : ¬(x = c) := fun hcontra => hnotin (by simp [hcontra])
    have hxc : (x == c) = false := by simp [hx]
    rw [splitOnCharAux, if_neg (by simp [hxc])]
    rw [ih (x :: acc) (fun hcontra => hnotin (by simp [hcontra]))]
    simp

theorem splitOnCharAux_sep (c : Char) :
    ∀ (p acc e : List Char), c ∉ p → c ∉ e →
    splitOnCharAux c acc (p ++ c :: e) = [acc.reverse ++ p, e] := by
  intro p
  induction p with
  | nil =>
    intro acc e _ he
    rw [List.nil_append, splitOnCharAux, if_pos (by simp)]
    rw [splitOnCharAux_no_sep c e [] he]
    simp
  | cons x rest ih =>
    intro acc e hp he
    have hx : ¬(x = c) := fun hcontra => hp (by simp [hcontra])
    rw [List.cons_append, splitOnCharAux, if_neg (by simp [hx])]
    rw [ih (x :: acc) e (fun hcontra => hp (by simp [hcontra])) he]
    simp

theorem splitOnChar_sep (c : Char) (p e : List Char) (hp : c ∉ p) (he : c ∉ e) :
    splitOnChar c (p ++ c :: e) = [p, e] := by
  have h := splitOnCharAux_sep c p [] e hp he
  simpa [splitOnChar] using h

/-- C1: for a non-empty CheckResult sequence the verdict is `passed` iff the
latest-completed entry's conclusion is SUCCESS.  Refuted: the code passes any
conclusion other than the string `FAILURE`, so a latest entry concluding
`SKIPPED` yields a passing verdict although its conclusion is not SUCCESS. -/
theorem checkVerdict_success_iff_cx :
    checkVerdict [⟨some "SKIPPED", 1⟩] = true ∧
      (selectLatest ⟨some "SKIPPED", 1⟩ []).conclusion ≠ some "SUCCESS" := by
  constructor
  · decide
  · decide

/-- C1 (amended): for a non-empty CheckResult sequence the verdict is `passed`
iff the selected entry's conclusion — defaulting to FAILURE when absent — is
not the string FAILURE (so SUCCESS, SKIPPED and unknown conclusions pass);
the selected entry is a member of the sequence with maximal `completedAt`. -/
theorem checkVerdict_latest_notFailure (hd : CheckResult) (tl : List CheckResult) :
    (checkVerdict (hd :: tl) = true ↔
      ((selectLatest hd tl).conclusion.getD "FAILURE") ≠ "FAILURE")
    ∧ selectLatest hd tl ∈ hd :: tl
    ∧ (∀ x ∈ hd :: tl, x.completedAt ≤ (selectLatest hd tl).completedAt) := by
  refine ⟨?_, foldl_select_mem tl hd, fun x hx => foldl_select_max tl hd x hx⟩
  simp [checkVerdict]

/-- Witness for C1 at a concrete rollup whose latest entry concluded SKIPPED. -/
theorem checkVerdict_latest_notFailure_witness :
    checkVerdict [⟨some "SKIPPED", 2⟩, ⟨some "FAILURE", 1⟩] = true :=
  (checkVerdict_latest_notFailure ⟨some "SKIPPED", 2⟩ [⟨some "FAILURE", 1⟩]).1.mpr (by decide)

/-- C2: for a non-empty CheckResult sequence the verdict depends only on the
entry at the position Python's `max` selects from the `completedAt` keys (the
first position carrying the maximal timestamp): two sequences with the same
timestamps and the same conclusion at that position get the same verdict,
whatever the conclusions of all other entries. -/
theorem verdict_depends_only_on_latest (a1 : CheckResult) (l1 : List CheckResult)
    (a2 : CheckResult) (l2 : List CheckResult)
    (hmap : (a1 :: l1).map (fun c => c.completedAt) = (a2 :: l2).map (fun c => c.completedAt))
    (hsel : ((a1 :: l1).getD (selIdx ((a1 :: l1).map (fun c => c.completedAt)))
        defaultCheckResult).conclusion =
      ((a2 :: l2).getD (selIdx ((a1 :: l1).map (fun c => c.completedAt)))
        defaultCheckResult).conclusion) :
    checkVerdict (a1 :: l1) = checkVerdict (a2 :: l2) := by
  have e1 := selectLatest_eq_getD a1 l1
  have e2 := selectLatest_eq_getD a2 l2
  rw [← hmap] at e2
  rw [checkVerdict, checkVerdict, e1, e2, hsel]

/-- Witness for C2: two rollups agreeing on timestamps and on the conclusion
of the latest entry, with different conclusions elsewhere, get one verdict. -/
theorem verdict_depends_only_on_latest_witness :
    checkVerdict [⟨some "FAILURE", 1⟩, ⟨some "SUCCESS", 2⟩] =
      checkVerdict [⟨some "SKIPPED", 1⟩, ⟨some "SUCCESS", 2⟩] :=
  verdict_depends_only_on_latest ⟨some "FAILURE", 1⟩ [⟨some "SUCCESS", 2⟩]
    ⟨some "SKIPPED", 1⟩ [⟨some "SUCCESS", 2⟩] (by decide) (by decide)

/-- C3: whenever the gate rejects (failing verdict or raised exception), the
rollback runs before returning and the exit code is 1.  First conjunct: every
run either accepts with exit 0 and no rollback, or rolls back and exits 1.
Second conjunct: on the fully evaluated path a failing verdict yields
rollback and exit 1. -/
theorem gate_reject_rolls_back :
    (∀ w, check_pr_status w = (0, false) ∨ check_pr_status w = (1, true))
    ∧ (∀ w fb bb, get_feature_branch w = .ok (some fb) → fb ≠ "" →
        w.baseBranchResult = .ok bb → is_fms_member_w w = .ok true →
        check_pr_status_impl_w w = .ok false → check_pr_status w = (1, true)) := by
  constructor
  · intro w
    cases hg : get_feature_branch w with
    | error e => simp [check_pr_status, hg]
    | ok ob =>
      cases ob with
      | none => simp [check_pr_status, hg]
      | some fb =>
        by_cases hfb : fb = ""
        · simp [check_pr_status, hg, hfb]
        · cases hb : w.baseBranchResult with
          | error e => simp [check_pr_status, hg, hfb, hb]
          | ok bb =>
            by_cases hbb : bb = ""
            · cases hc : check_pr_status_impl_w w with
              | error e => simp [check_pr_status, hg, hfb, hb, hbb, hc]
              | ok v => cases v <;> simp [check_pr_status, hg, hfb, hb, hbb, hc]
            · cases hm : is_fms_member_w w with
              | error e => simp [check_pr_status, hg, hfb, hb, hbb, hm]
              | ok mv =>
                cases mv with
                | false => simp [check_pr_status, hg, hfb, hb, hbb, hm]
                | true =>
                  cases hc : check_pr_status_impl_w w with
                  | error e => simp [check_pr_status, hg, hfb, hb, hbb, hm, hc]
                  | ok v => cases v <;> simp [check_pr_status, hg, hfb, hb, hbb, hm, hc]
  · intro w fb bb hg hfb hb hm hc
    by_cases hbb : bb = ""
    · simp [check_pr_status, hg, hfb, hb, hbb, hc]
    · simp [check_pr_status, hg, hfb, hb, hbb, hm, hc]

/-- Witness for C3: a concrete run whose single check concluded FAILURE rolls
back and exits 1. -/
theorem gate_reject_rolls_back_witness : check_pr_status wFail = (1, true) :=
  gate_reject_rolls_back.2 wFail "f" "main" (by decide) (by decide) (by decide)
    (by decide) (by decide)

/-- C4: the claim says that a merge in progress whose message yields no
branch name sends the gate to the rollback path.  Refuted: on a concrete
in-progress merge with message `no pattern here` the run returns exit 0 with
no rollback (the code prints the not-merging message and skips). -/
theorem no_branch_name_cx :
    wNoPattern.mergeMsgExists = true ∧
      extractFeatureBranch wNoPattern.mergeMsg = none ∧
      check_pr_status wNoPattern = (0, false) := by
  refine ⟨rfl, by decide, by decide⟩

/-- C4 (amended): if a merge is in progress but no feature-branch name can be
extracted from the merge message, the gate skips — exit 0, no rollback —
treating the run exactly like no merge in progress. -/
theorem no_branch_name_skips (w : World) (d : String)
    (h1 : w.gitDirResult = .ok d) (h2 : w.mergeMsgExists = true)
    (h3 : extractFeatureBranch w.mergeMsg = none) :
    check_pr_status w = (0, false) := by
  have hg : get_feature_branch w = .ok none := by
    simp [get_feature_branch, h1, h2, h3]
  simp [check_pr_status, hg]

/-- Witness for C4 (amended) at the concrete unparseable-message run. -/
theorem no_branch_name_skips_witness : check_pr_status wNoPattern = (0, false) :=
  no_branch_name_skips wNoPattern ".git" rfl rfl (by decide)

/-- C5: the claim says an uninstalled or unauthenticated review-service tool
makes the availability check report unavailability and the gate reject
without querying the service.  Refuted: the availability checks are commented
out, so with the tool neither installed nor authenticated the check still
reports available and the gate proceeds to the query and accepts on a
passing rollup. -/
theorem availability_cx :
    check_github_cli_availability false false = true ∧
      wNoAuth.ghInstalled = false ∧ wNoAuth.ghAuthenticated = false ∧
      check_pr_status wNoAuth = (0, false) := by
  refine ⟨rfl, rfl, rfl, by decide⟩

/-- C5 (amended): the availability check unconditionally reports available
(its installation and authentication checks are disabled), so the gate always
proceeds to query the service; a missing tool surfaces instead as a failed
query command, which `_check_pr_status` converts to a failing verdict, and
the gate then rejects and rolls back. -/
theorem availability_always_true :
    (∀ a b, check_github_cli_availability a b = true)
    ∧ (∀ w, w.ghPrList = FetchResult.cmdErr → check_pr_status_impl_w w = .ok false)
    ∧ (∀ w fb bb, get_feature_branch w = .ok (some fb) → fb ≠ "" →
        w.baseBranchResult = .ok bb → is_fms_member_w w = .ok true →
        w.ghPrList = FetchResult.cmdErr → check_pr_status w = (1, true)) := by
  refine ⟨fun a b => rfl, ?_, ?_⟩
  · intro w hw
    simp [check_pr_status_impl_w, check_pr_status_impl, check_github_cli_availability, hw]
  · intro w fb bb hg hfb hb hm hw
    have hc : check_pr_status_impl_w w = .ok false := by
      simp [check_pr_status_impl_w, check_pr_status_impl, check_github_cli_availability, hw]
    by_cases hbb : bb = ""
    · simp [check_pr_status, hg, hfb, hb, hbb, hc]
    · simp [check_pr_status, hg, hfb, hb, hbb, hm, hc]

/-- Witness for C5 (amended): a concrete run whose PR-list command fails
rolls back and exits 1. -/
theorem availability_always_true_witness : check_pr_status wCmdErr = (1, true) :=
  availability_always_true.2.2 wCmdErr "f" "main" (by decide) (by decide) rfl
    (by decide) rfl

/-- C6: lookup immediately after `store(r, b, false)` returns `false`; a
store to any other key leaves `lookup(r, b)` unchanged; and a cache hit makes
the decision come from the cached verdict, bypassing the service query. -/
theorem verdict_cache_spec :
    (∀ (c : VerdictCache) (r : Nat) (b : String),
      VerdictCache.lookup (VerdictCache.store c r b false) r b = some false)
    ∧ (∀ (c : VerdictCache) (r : Nat) (b : String) (r2 : Nat) (b2 : String) (v : Bool),
        (r2, b2) ≠ (r, b) →
        VerdictCache.lookup (VerdictCache.store c r2 b2 v) r b = VerdictCache.lookup c r b)
    ∧ (∀ (c : VerdictCache) (r : Nat) (b : String) (v : Bool) (q : Except Unit Bool),
        VerdictCache.lookup c r b = some v → decideWithCache c r b q = .ok v) := by
  refine ⟨?_, ?_, ?_⟩
  · intro c r b
    simp [VerdictCache.lookup, VerdictCache.store, List.find?]
  · intro c r b r2 b2 v hne
    have hk : ((r2, b2) == (r, b)) = false := by
      rw [beq_eq_false_iff_ne]
      exact hne
    simp only [VerdictCache.lookup, VerdictCache.store]
    rw [List.find?_cons_of_neg _ (by simpa using hk)]
    rw [find?_filter_ne c (r, b) (r2, b2) hne]
  · intro c r b v q hl
    simp [decideWithCache, hl]

/-- Witness for C6: a store under key (2, b) leaves the entry under (1, a)
alone, and a cached `false` decides without consulting the query result. -/
theorem verdict_cache_spec_witness :
    VerdictCache.lookup
        (VerdictCache.store (VerdictCache.store ([] : VerdictCache) 1 "a" false) 2 "b" true) 1 "a" =
      VerdictCache.lookup (VerdictCache.store ([] : VerdictCache) 1 "a" false) 1 "a" ∧
    decideWithCache (VerdictCache.store ([] : VerdictCache) 1 "a" false) 1 "a" (.ok true) =
      .ok false := by
  constructor
  · exact verdict_cache_spec.2.1 (VerdictCache.store ([] : VerdictCache) 1 "a" false)
      1 "a" 2 "b" true (by decide)
  · exact verdict_cache_spec.2.2 (VerdictCache.store ([] : VerdictCache) 1 "a" false)
      1 "a" false (.ok true) (by decide)

/-- C7: the claim says the first non-merge commit passes iff its committer
email's domain matches the allowed organisation domain.  Refuted: the code
tests substring containment of `@fullmarks.co.jp`, so a committer email whose
domain is `fullmarks.co.jp.evil.com` — not the organisation domain — is
accepted as a member. -/
theorem is_fms_member_domain_cx :
    is_fms_member (.ok "h1") fmsShowEvil = .ok true ∧
      emailDomain "x@fullmarks.co.jp.evil.com".data ≠ "fullmarks.co.jp".data := by
  refine ⟨by decide, by decide⟩

/-- C7 (amended): the membership filter returns false on a commit-range
lookup failure, on `fatal` output, and when no qualifying commit exists;
otherwise it walks the range in the given (oldest-first) order, skips commits
with more than one parent, and decides from the first remaining commit by
substring containment of `@fullmarks.co.jp` in the committer email — not by
exact domain equality. -/
theorem is_fms_member_policy :
    (∀ f, is_fms_member (.error ()) f = .ok false)
    ∧ (∀ (f : String → Except Unit String) (s : String),
        List.isPrefixOf "fatal".data s.data = true → is_fms_member (.ok s) f = .ok false)
    ∧ (∀ (f : String → Except Unit String) (s : String),
        List.isPrefixOf "fatal".data s.data = false →
        is_fms_member (.ok s) f = fms_loop f (splitlinesL s.data))
    ∧ (∀ f, fms_loop f [] = .ok false)
    ∧ (∀ (f : String → Except Unit String) (h : List Char) (rest : List (List Char))
          (p e : List Char),
        f (String.mk (stripCharL squote h)) = .ok (String.mk (p ++ hashChar :: e)) →
        hashChar ∉ p → hashChar ∉ e →
        fms_loop f (h :: rest) =
          if (wordsL p).length > 1 then fms_loop f rest
          else .ok (hasInfix fmsDomain e)) := by
  refine ⟨fun f => rfl, ?_, ?_, fun f => rfl, ?_⟩
  · intro f s hs
    simp [is_fms_member, hs]
  · intro f s hs
    simp [is_fms_member, hs]
  · intro f h rest p e hf hp he
    have hsplit : splitOnChar hashChar (String.mk (p ++ hashChar :: e)).data = [p, e] := by
      have h2 := splitOnChar_sep hashChar p e hp he
      simpa using h2
    simp [fms_loop, hf, hsplit]

/-- Witness for C7 (amended): the first commit is single-parent with a
member email, so the loop accepts. -/
theorem is_fms_member_policy_witness :
    fms_loop fmsShowMember ["h1".data] = .ok true := by
  have h := is_fms_member_policy.2.2.2.2 fmsShowMember "h1".data [] "p".data
    "a@fullmarks.co.jp".data (by decide) (by decide) (by decide)
  rw [h]
  decide

theorem searchCapture_head {s X : List Char} (hs : s ≠ []) (h : matchAt s = some X) :
    searchCapture s = some X := by
  cases s with
  | nil => exact absurd rfl hs
  | cons c t => simp [searchCapture, h]

/-- C8: a message carrying the pattern — `Merge`, whitespace, `branch`,
whitespace, then a single-quoted nonempty name X with no quote in it — at its
start yields exactly X as the capture, whatever follows; and a message yields
a capture only if it contains an instance of the pattern, so any message not
matching the pattern yields none. -/
theorem extract_feature_branch_correct :
    (∀ (X rest w1 w2 : List Char),
      X ≠ [] → (∀ c ∈ X, ¬(c = squote)) →
      w1 ≠ [] → (∀ c ∈ w1, isWsChar c = true) →
      w2 ≠ [] → (∀ c ∈ w2, isWsChar c = true) →
      extractFeatureBranch
          (String.mk (mergeLit ++ w1 ++ branchLit ++ w2 ++ squote :: (X ++ squote :: rest))) =
        some (String.mk X))
    ∧ (∀ (msg : String) (X : String),
        extractFeatureBranch msg = some X → MatchesPattern msg.data) := by
  constructor
  · intro X rest w1 w2 hX hXq hw1 hw1a hw2 hw2a
    have hm := matchAt_complete w1 w2 X rest hw1 hw1a hw2 hw2a hX hXq
    have hne : mergeLit ++ w1 ++ branchLit ++ w2 ++ squote :: (X ++ squote :: rest) ≠ [] := by
      simp [mergeLit]
    have hsc := searchCapture_head hne hm
    have hunfold : extractFeatureBranch
        (String.mk (mergeLit ++ w1 ++ branchLit ++ w2 ++ squote :: (X ++ squote :: rest))) =
        (searchCapture
          (mergeLit ++ w1 ++ branchLit ++ w2 ++ squote :: (X ++ squote :: rest))).map
          String.mk := rfl
    rw [hunfold, hsc]
    rfl
  · intro msg X h
    simp only [extractFeatureBranch, Option.map_eq_some'] at h
    obtain ⟨Y, hY, _⟩ := h
    exact searchCapture_sound hY

/-- Witness for C8 at the concrete message `Merge branch` of branch `fx`. -/
theorem extract_feature_branch_correct_witness :
    extractFeatureBranch
        (String.mk (mergeLit ++ [' '] ++ branchLit ++ [' '] ++
          squote :: (['f', 'x'] ++ squote :: []))) =
      some (String.mk ['f', 'x']) :=
  extract_feature_branch_correct.1 ['f', 'x'] [] [' '] [' '] (by decide) (by decide)
    (by decide) (by decide) (by decide) (by decide)

/-- C9: an empty or absent check rollup yields a passing verdict and the gate
accepts: exit 0, no rollback. -/
theorem empty_rollup_passes (w : World) (fb bb : String) (n : Nat) (ns : List Nat)
    (hg : get_feature_branch w = .ok (some fb)) (hfb : fb ≠ "")
    (hb : w.baseBranchResult = .ok bb) (hm : is_fms_member_w w = .ok true)
    (hpr : w.ghPrList = .ok (n :: ns))
    (hr : w.ghRollup = .ok none ∨ w.ghRollup = .ok (some [])) :
    check_pr_status_impl_w w = .ok true ∧ check_pr_status w = (0, false) := by
  have hc : check_pr_status_impl_w w = .ok true := by
    rcases hr with hr | hr
    · simp [check_pr_status_impl_w, check_pr_status_impl, check_github_cli_availability,
        hpr, hr]
    · simp [check_pr_status_impl_w, check_pr_status_impl, check_github_cli_availability,
        hpr, hr, checkVerdict]
  refine ⟨hc, ?_⟩
  by_cases hbb : bb = ""
  · simp [check_pr_status, hg, hfb, hb, hbb, hc]
  · simp [check_pr_status, hg, hfb, hb, hbb, hm, hc]

/-- Witness for C9 at a concrete run with one PR and an empty rollup. -/
theorem empty_rollup_passes_witness :
    check_pr_status_impl_w wEmptyRollup = .ok true ∧
      check_pr_status wEmptyRollup = (0, false) :=
  empty_rollup_passes wEmptyRollup "f" "main" 1 [] (by decide) (by decide) rfl
    (by decide) rfl (Or.inr rfl)

/-- C10: zero open pull requests whose head matches the branch is treated as
passing; the gate exits 0 and performs no rollback. -/
theorem no_pr_passes (w : World) (fb bb : String)
    (hg : get_feature_branch w = .ok (some fb)) (hfb : fb ≠ "")
    (hb : w.baseBranchResult = .ok bb) (hm : is_fms_member_w w = .ok true)
    (hpr : w.ghPrList = .ok []) :
    check_pr_status_impl_w w = .ok true ∧ check_pr_status w = (0, false) := by
  have hc : check_pr_status_impl_w w = .ok true := by
    simp [check_pr_status_impl_w, check_pr_status_impl, check_github_cli_availability, hpr]
  refine ⟨hc, ?_⟩
  by_cases hbb : bb = ""
  · simp [check_pr_status, hg, hfb, hb, hbb, hc]
  · simp [check_pr_status, hg, hfb, hb, hbb, hm, hc]

/-- Witness for C10 at a concrete run with no open pull request. -/
theorem no_pr_passes_witness :
    check_pr_status_impl_w wNoPr = .ok true ∧ check_pr_status wNoPr = (0, false) :=
  no_pr_passes wNoPr "f" "main" (by decide) (by decide) rfl (by decide) rfl
